import Mathlib

/-!
Verification of the course-dependency chart program (`chart.cpp`).

Strings are modelled as `List Char`.  Each definition below is a shallow
embedding of the corresponding C++ function; file streams are modelled as
`Option (List (List Char))` (a list of lines, or `none` when the file cannot
be opened), and `std::map<string, Course>` as a function
`List Char → Option Course`.
-/

namespace CourseChart

/-- Convert a Lean string literal to the `List Char` representation. -/
def str (s : String) : List Char := s.data

/-- The whitespace characters recognised by the C++ `trim`
(`" \t\n\r"`). -/
def isWS (c : Char) : Bool := c == ' ' || c == '\t' || c == '\n' || c == '\r'

/-- C++ `trim`: remove leading and trailing whitespace; a string of only
whitespace becomes empty. -/
def trim (s : List Char) : List Char :=
  ((s.dropWhile isWS).reverse.dropWhile isWS).reverse

/-- `beginsWith w s` holds when `w` is a prefix of `s` (used to model
`std::string::find` of a substring). -/
def beginsWith : List Char → List Char → Bool
  | [], _ => true
  | _ :: _, [] => false
  | a :: as, b :: bs => (a == b) && beginsWith as bs

/-- `findSub w s` is the least index at which `w` occurs as a substring of
`s`, or `none` — the model of `str.find(word, start)` in `splitByWord`. -/
def findSub (w : List Char) : List Char → Option Nat
  | [] => if beginsWith w [] then some 0 else none
  | c :: rest =>
    if beginsWith w (c :: rest) then some 0
    else (findSub w rest).map (· + 1)

/-- Fuel-indexed model of the loop of C++ `splitByWord`: while the word
occurs, emit the trimmed text before the occurrence and advance past it;
afterwards emit the trimmed remainder unless the remainder is empty
(checked before trimming).  The fuel only serves termination; for a
non-empty word, `s.length + 1` steps always suffice. -/
def splitByWordAux (w : List Char) : Nat → List Char → List (List Char)
  | 0, _ => []
  | fuel + 1, s =>
    match findSub w s with
    | some i => trim (s.take i) :: splitByWordAux w fuel (s.drop (i + w.length))
    | none => if s = [] then [] else [trim s]

/-- C++ `splitByWord(str, word)`. -/
def splitByWord (s w : List Char) : List (List Char) :=
  splitByWordAux w (s.length + 1) s

/-- The tokens `splitByWord` emits for the occurrences of the word only
(without the final remainder token). -/
def splitByWordBodyAux (w : List Char) : Nat → List Char → List (List Char)
  | 0, _ => []
  | fuel + 1, s =>
    match findSub w s with
    | some i => trim (s.take i) :: splitByWordBodyAux w fuel (s.drop (i + w.length))
    | none => []

/-- The trailing remainder of `splitByWord`: the text after the last
occurrence of the word that the scan consumes. -/
def splitByWordTailAux (w : List Char) : Nat → List Char → List Char
  | 0, s => s
  | fuel + 1, s =>
    match findSub w s with
    | some i => splitByWordTailAux w fuel (s.drop (i + w.length))
    | none => s

def splitByWordBody (s w : List Char) : List (List Char) :=
  splitByWordBodyAux w (s.length + 1) s

def splitByWordTail (s w : List Char) : List Char :=
  splitByWordTailAux w (s.length + 1) s

/-- The loop of C++ `split`, which tokenizes with `std::getline(stream, tok,
delimiter)`: `acc` is the (reversed) partial token read so far.  `getline`
fails — emitting nothing — exactly when the stream is already exhausted, so
a delimiter at the very end of the input produces no trailing empty
token. -/
def splitGo (d : Char) : List Char → List Char → List (List Char)
  | acc, [] => [trim acc.reverse]
  | acc, c :: rest =>
    if c = d then
      trim acc.reverse ::
        (match rest with
          | [] => []
          | _ :: _ => splitGo d [] rest)
    else splitGo d (c :: acc) rest

/-- C++ `split(str, delimiter)`: `getline`-based splitting; every token is
trimmed; an empty input yields no tokens at all. -/
def split (s : List Char) (d : Char) : List (List Char) :=
  match s with
  | [] => []
  | _ :: _ => splitGo d [] s

/-- One `std::getline(stream, field, d)` on a string stream holding `s`:
fails (`none`) when the stream is exhausted, otherwise returns the text up
to the first `d` (the delimiter being consumed) together with the rest of
the stream. -/
def getlineAux (s : List Char) (d : Char) : Option (List Char × List Char) :=
  match s with
  | [] => none
  | _ :: _ => some (s.takeWhile (fun c => c ≠ d), (s.dropWhile (fun c => c ≠ d)).drop 1)

/-- The two comma-delimited `getline` reads of `parseClassNames` on one
line; a failed read leaves the field as the empty string. -/
def getline2 (line : List Char) : List Char × List Char :=
  match getlineAux line ',' with
  | none => ([], [])
  | some (f1, r1) =>
    match getlineAux r1 ',' with
    | none => (f1, [])
    | some (f2, _) => (f1, f2)

/-- The three tab-delimited `getline` reads of `parsePrerequisites` on one
line; failed reads leave fields as the empty string. -/
def getline3 (line : List Char) : List Char × List Char × List Char :=
  match getlineAux line '\t' with
  | none => ([], [], [])
  | some (f1, r1) =>
    match getlineAux r1 '\t' with
    | none => (f1, [], [])
    | some (f2, r2) =>
      match getlineAux r2 '\t' with
      | none => (f1, f2, [])
      | some (f3, _) => (f1, f2, f3)

/-- The `Course` struct of `chart.cpp`. -/
structure Course where
  classNumber : List Char
  className : List Char
  prerequisites : List (List (List Char))
deriving DecidableEq

/-- `std::map<string, Course>`, modelled as a partial function. -/
def CourseMap : Type := List Char → Option Course

def emptyMap : CourseMap := fun _ => none

/-- `courseMap[key] = course` — overwrite or create the entry. -/
def mapInsert (m : CourseMap) (k : List Char) (c : Course) : CourseMap :=
  fun q => if q = k then some c else m q

/-- The literal word `"OR"` used to separate alternatives. -/
def orWord : List Char := str "OR"

/-- The inner option loop of `parsePrerequisites`: walk the alternatives of
one group, keeping an alternative only when it is not yet in the (shared)
`uniquePrereqGroups` set, and inserting every kept alternative into that
set.  Returns the grown set together with the kept alternatives. -/
def dedupOptions : List (List Char) → List (List Char) → List (List Char) × List (List Char)
  | seen, [] => (seen, [])
  | seen, o :: os =>
    if o ∈ seen then dedupOptions seen os
    else
      let r := dedupOptions (o :: seen) os
      (r.1, o :: r.2)

/-- `groupStr += opt + " "` over the kept alternatives. -/
def joinTrail (l : List (List Char)) : List Char :=
  l.foldl (fun acc o => acc ++ o ++ [' ']) []

/-- Processing of one comma-separated top-level group in
`parsePrerequisites`: the state is the `uniquePrereqGroups` set paired with
the course's prerequisite expression built so far. -/
def addGroup (st : List (List Char) × List (List (List Char))) (group0 : List Char) :
    List (List Char) × List (List (List Char)) :=
  let group := trim group0
  let options := splitByWord group orWord
  let dd := dedupOptions st.1 options
  if dd.2 = [] then (dd.1, st.2)
  else
    let groupStr := trim (joinTrail dd.2)
    if groupStr ∈ dd.1 then (dd.1, st.2)
    else (groupStr :: dd.1, st.2 ++ [dd.2])

/-- The whole per-row group loop of `parsePrerequisites`: start from a fresh
`uniquePrereqGroups` set and the course's existing expression, fold over the
comma-separated groups of the raw field. -/
def processPrereqField (existing : List (List (List Char))) (s : List Char) :
    List (List (List Char)) :=
  ((split s ',').foldl addGroup ([], existing)).2

/-- The trimmed CourseId field of a prerequisite row. -/
def rowCourseId (line : List Char) : List Char := trim (getline3 line).1

/-- Processing of one non-header line of the prerequisite source. -/
def processPrereqRow (m : CourseMap) (line : List Char) : CourseMap :=
  let f := getline3 line
  let classNumber := trim f.1
  let prereqString := trim f.2.2
  match m classNumber with
  | none => m
  | some course =>
    mapInsert m classNumber
      { course with prerequisites := processPrereqField course.prerequisites prereqString }

/-- The trimmed CourseId field of a catalog row. -/
def catRowId (line : List Char) : List Char := trim (getline2 line).1

/-- Processing of one non-header line of the catalog source
(`parseClassNames` loop body): build the record and overwrite the map
entry. -/
def processCatalogRow (m : CourseMap) (line : List Char) : CourseMap :=
  let f := getline2 line
  mapInsert m (trim f.1) ⟨trim f.1, trim f.2, []⟩

/-- C++ `parseClassNames`: `none` models a file that cannot be opened, in
which case the empty map is returned; otherwise skip the header line and
fold over the remaining rows. -/
def parseClassNames : Option (List (List Char)) → CourseMap
  | none => emptyMap
  | some lines => (lines.drop 1).foldl processCatalogRow emptyMap

/-- C++ `parsePrerequisites`: `none` models a file that cannot be opened, in
which case the map is returned unmodified; otherwise skip the header line
and fold over the remaining rows. -/
def parsePrerequisites : Option (List (List Char)) → CourseMap → CourseMap
  | none, m => m
  | some lines, m => (lines.drop 1).foldl processPrereqRow m

/-- The rows a prerequisite source contributes (everything after its
header; nothing when the source cannot be opened). -/
def prereqRowsOf : Option (List (List Char)) → List (List Char)
  | none => []
  | some lines => lines.drop 1

/-- First output line of `Course::display`. -/
def displayLine1 (c : Course) : List Char :=
  str "Course: " ++ c.classNumber ++ str " - " ++ c.className

/-- Second output line of `Course::display`: `"["`, then every alternative
followed by one space, then `"] "`, for each group in order. -/
def displayLine2 (c : Course) : List Char :=
  str "Prerequisites: " ++
    c.prerequisites.foldl
      (fun acc g => acc ++ str "[" ++ g.foldl (fun a p => a ++ p ++ [' ']) [] ++ str "] ") []

/-- Modelled from the spec: the canonical key of a group is its
alternatives joined by a single space, in order. -/
def canonicalKey : List (List Char) → List Char
  | [] => []
  | [g] => g
  | g :: g2 :: gs => g ++ [' '] ++ canonicalKey (g2 :: gs)

/-- The key string the code actually computes for a group (join with a
trailing space after every alternative, then trim). -/
def codeKey (g : List (List Char)) : List Char := trim (joinTrail g)

/-- Claim C1: the code drops every one-element group.  At the failing input
(course `EECS 280` in the index with an empty expression, prerequisite row
with the single-alternative raw field `EECS 203`), processing the row
leaves the expression empty instead of appending the group `[EECS 203]`:
the alternative is inserted into the shared `uniquePrereqGroups` set, the
group's key string equals that alternative, so the key check finds it and
the group is discarded. -/
theorem C1_single_alternative_dropped :
    processPrereqRow
        (mapInsert emptyMap (str "EECS 280") ⟨str "EECS 280", str "Prog", []⟩)
        (str "EECS 280\tProg\tEECS 203") (str "EECS 280") =
      some ⟨str "EECS 280", str "Prog", []⟩ := by
  decide

/-- Claim C2 counterexample: for a course `PHYS 140` present in the index
with an empty expression, processing the row whose raw field is
`MATH 100 OR MATH 101, MATH 101` does NOT leave the expression equal to the
single group `[MATH 100]`. -/
theorem C2_counterexample :
    ¬ (processPrereqRow
          (mapInsert emptyMap (str "PHYS 140") ⟨str "PHYS 140", str "P", []⟩)
          (str "PHYS 140\tP\tMATH 100 OR MATH 101, MATH 101") (str "PHYS 140") =
        some ⟨str "PHYS 140", str "P", [[str "MATH 100"]]⟩) := by
  decide

/-- Claim C2 (amended): processing that row leaves the expression equal to
the single group `[MATH 100, MATH 101]` — the first top-level group keeps
both alternatives, and the second top-level group becomes empty after
global dedup (`MATH 101` already seen) and is discarded. -/
theorem C2_amended_result :
    processPrereqRow
        (mapInsert emptyMap (str "PHYS 140") ⟨str "PHYS 140", str "P", []⟩)
        (str "PHYS 140\tP\tMATH 100 OR MATH 101, MATH 101") (str "PHYS 140") =
      some ⟨str "PHYS 140", str "P", [[str "MATH 100", str "MATH 101"]]⟩ := by
  decide

/-- Claim C3 counterexample: the empty input does not yield a single empty
token (N+1 tokens for N = 0 delimiters); the `getline` loop yields no
token at all. -/
theorem C3_counterexample :
    ¬ ((split ([] : List Char) ',').length = ([] : List Char).count ',' + 1) := by
  decide

/-- Claim C6 counterexample: with catalog rows `CS101,Intro` and
`CS102,Data Structures` and the prerequisite row
`CS102 \t Data Structures \t CS101 OR CS100, CS101`, the resulting
expression for CS102 is indeed the single group `[CS101, CS100]`, but the
formatter does not render the second line exactly as
`Prerequisites: [CS101 CS100]`. -/
theorem C6_counterexample :
    parsePrerequisites
        (some [str "Header", str "CS102\tData Structures\tCS101 OR CS100, CS101"])
        (parseClassNames (some [str "Header", str "CS101,Intro", str "CS102,Data Structures"]))
        (str "CS102") =
      some ⟨str "CS102", str "Data Structures", [[str "CS101", str "CS100"]]⟩ ∧
    ¬ (displayLine2 ⟨str "CS102", str "Data Structures", [[str "CS101", str "CS100"]]⟩ =
        str "Prerequisites: [CS101 CS100]") := by
  exact ⟨by decide, by decide⟩

/-- Claim C6 (amended): same inputs; the expression for CS102 is the single
group `[CS101, CS100]` and the formatter renders the course as the two
lines `Course: CS102 - Data Structures` and `Prerequisites: [CS101 CS100 ] `
(every alternative is followed by one space and every closing bracket by
one space). -/
theorem C6_amended_end_to_end :
    parsePrerequisites
        (some [str "Header", str "CS102\tData Structures\tCS101 OR CS100, CS101"])
        (parseClassNames (some [str "Header", str "CS101,Intro", str "CS102,Data Structures"]))
        (str "CS102") =
      some ⟨str "CS102", str "Data Structures", [[str "CS101", str "CS100"]]⟩ ∧
    displayLine1 ⟨str "CS102", str "Data Structures", [[str "CS101", str "CS100"]]⟩ =
      str "Course: CS102 - Data Structures" ∧
    displayLine2 ⟨str "CS102", str "Data Structures", [[str "CS101", str "CS100"]]⟩ =
      str "Prerequisites: [CS101 CS100 ] " := by
  exact ⟨by decide, by decide, by decide⟩

/-- Claim C9: a catalog source that cannot be opened yields the empty
index, and a prerequisite source that cannot be opened leaves the index
exactly as it was; both are returned normally rather than propagated. -/
theorem C9_unopenable_sources :
    parseClassNames none = emptyMap ∧ ∀ m : CourseMap, parsePrerequisites none m = m :=
  ⟨rfl, fun _ => rfl⟩

/-- A prerequisite row whose trimmed CourseId is not in the map leaves the
map untouched (the `courseMap.find == end` branch). -/
theorem processPrereqRow_absent (m : CourseMap) (line : List Char)
    (h : m (rowCourseId line) = none) : processPrereqRow m line = m := by
  have h' : m (trim (getline3 line).1) = none := h
  simp only [processPrereqRow]
  rw [h']

/-- Claim C7: for every index and every prerequisite row whose trimmed
CourseId is not a key of the index, processing the row creates no new
record and leaves every existing course's prerequisite expression
unchanged — the map is returned exactly as it was. -/
theorem C7_unknown_reference_skipped (m : CourseMap) (line : List Char)
    (h : m (rowCourseId line) = none) : processPrereqRow m line = m :=
  processPrereqRow_absent m line h

theorem C7_witness :
    emptyMap (rowCourseId (str "EECS 482\tOS\tEECS 281")) = none ∧
    processPrereqRow emptyMap (str "EECS 482\tOS\tEECS 281") = emptyMap :=
  ⟨rfl, C7_unknown_reference_skipped emptyMap (str "EECS 482\tOS\tEECS 281") rfl⟩

theorem splitGo_delim_cons (d x : Char) (acc xs : List Char) :
    splitGo d acc (d :: x :: xs) = trim acc.reverse :: splitGo d [] (x :: xs) := by
  simp [splitGo]

theorem splitGo_other (d c : Char) (acc rest : List Char) (h : c ≠ d) :
    splitGo d acc (c :: rest) = splitGo d (c :: acc) rest := by
  simp [splitGo, h]

/-- Token count of the `getline` loop: one token per delimiter, plus a
final token unless the input ends with the delimiter. -/
theorem splitGo_length (d : Char) :
    ∀ (s acc : List Char),
      (splitGo d acc s).length = s.count d + (if s.getLast? = some d then 0 else 1) := by
  intro s
  induction s with
  | nil => intro acc; simp [splitGo]
  | cons c rest ih =>
    intro acc
    by_cases hc : c = d
    · subst hc
      cases rest with
      | nil => simp [splitGo]
      | cons x xs =>
        rw [splitGo_delim_cons, List.length_cons, ih [], List.getLast?_cons_cons]
        simp [List.count_cons]
        by_cases h2 : (x :: xs).getLast? = some c <;> simp [h2]
    · cases rest with
      | nil => simp [splitGo, hc, List.count_cons]
      | cons x xs =>
        rw [splitGo_other d c acc (x :: xs) hc, ih (c :: acc), List.getLast?_cons_cons]
        simp [List.count_cons, hc]

/-- Claim C3 (amended): an empty input yields zero tokens; otherwise an
input containing N occurrences of the delimiter yields N+1 tokens, except
that an input ending with the delimiter yields only N (the trailing empty
token is suppressed by the failing final `getline`). -/
theorem C3_amended_token_count (s : List Char) (d : Char) :
    (split s d).length =
      if s = [] then 0
      else s.count d + (if s.getLast? = some d then 0 else 1) := by
  cases s with
  | nil => simp [split]
  | cons c rest => simpa [split] using splitGo_length d (c :: rest) []

/-- A catalog row only touches the entry at its own trimmed CourseId. -/
theorem processCatalogRow_other (m : CourseMap) (r id : List Char)
    (h : catRowId r ≠ id) : processCatalogRow m r id = m id := by
  have h' : id ≠ trim (getline2 r).1 := fun e => h e.symm
  simp [processCatalogRow, mapInsert, h']

/-- A catalog row overwrites the entry at its own trimmed CourseId with the
record built from the row. -/
theorem processCatalogRow_self (m : CourseMap) (row : List Char) :
    processCatalogRow m row (catRowId row) =
      some ⟨trim (getline2 row).1, trim (getline2 row).2, []⟩ := by
  simp [processCatalogRow, mapInsert, catRowId]

theorem fold_catalog_nonmatching :
    ∀ (rows : List (List Char)) (m : CourseMap) (id : List Char),
      (∀ r ∈ rows, catRowId r ≠ id) →
      (rows.foldl processCatalogRow m) id = m id := by
  intro rows
  induction rows with
  | nil => intro m id _; rfl
  | cons r rest ih =>
    intro m id h
    simp only [List.foldl_cons]
    rw [ih (processCatalogRow m r) id (fun x hx => h x (List.mem_cons_of_mem _ hx)),
        processCatalogRow_other m r id (h r (List.mem_cons_self _ _))]

/-- Folding the catalog rows maps an id to the record built from the last
row whose trimmed CourseId equals it. -/
theorem fold_catalog_last :
    ∀ (rows : List (List Char)) (m : CourseMap) (id r : List Char),
      (rows.filter (fun l => catRowId l == id)).getLast? = some r →
      (rows.foldl processCatalogRow m) id =
        some ⟨trim (getline2 r).1, trim (getline2 r).2, []⟩ := by
  intro rows
  induction rows with
  | nil => intro m id r h; simp at h
  | cons row rest ih =>
    intro m id r h
    simp only [List.foldl_cons]
    by_cases hb : catRowId row = id
    · subst hb
      rw [List.filter_cons_of_pos (by simp)] at h
      cases hfr : rest.filter (fun l => catRowId l == catRowId row) with
      | nil =>
        rw [hfr] at h
        simp only [List.getLast?_singleton, Option.some.injEq] at h
        subst h
        have hnone : ∀ x ∈ rest, catRowId x ≠ catRowId row := by
          intro x hx heq
          have hmem : x ∈ rest.filter (fun l => catRowId l == catRowId row) := by
            rw [List.mem_filter]
            exact ⟨hx, by simp [heq]⟩
          rw [hfr] at hmem
          simp at hmem
        rw [fold_catalog_nonmatching rest (processCatalogRow m row) (catRowId row) hnone,
            processCatalogRow_self]
      | cons y ys =>
        rw [hfr, List.getLast?_cons_cons, ← hfr] at h
        exact ih (processCatalogRow m row) (catRowId row) r h
    · rw [List.filter_cons_of_neg (by simp [hb])] at h
      exact ih (processCatalogRow m row) id r h

/-- Claim C8: for a catalog source with several non-header rows sharing the
same trimmed CourseId, the load maps that CourseId to the record built from
the last such row in source order, silently replacing the earlier ones. -/
theorem C8_last_duplicate_row_wins (lines : List (List Char)) (id r : List Char)
    (h : ((lines.drop 1).filter (fun l => catRowId l == id)).getLast? = some r) :
    parseClassNames (some lines) id =
      some ⟨trim (getline2 r).1, trim (getline2 r).2, []⟩ := by
  simp only [parseClassNames]
  exact fold_catalog_last (lines.drop 1) emptyMap id r h

theorem C8_witness :
    (([str "h", str "A,X", str "A,Y"].drop 1).filter
        (fun l => catRowId l == str "A")).getLast? = some (str "A,Y") ∧
    parseClassNames (some [str "h", str "A,X", str "A,Y"]) (str "A") =
      some ⟨trim (getline2 (str "A,Y")).1, trim (getline2 (str "A,Y")).2, []⟩ :=
  ⟨by decide,
    C8_last_duplicate_row_wins [str "h", str "A,X", str "A,Y"] (str "A") (str "A,Y")
      (by decide)⟩

theorem findSub_nil (w : List Char) (hw : w ≠ []) : findSub w [] = none := by
  cases w with
  | nil => exact absurd rfl hw
  | cons a as => simp [findSub, beginsWith]

/-- Advancing past a found occurrence of a non-empty word strictly shrinks
the string. -/
theorem drop_length_lt (w s : List Char) (i : Nat) (hw : w ≠ [])
    (h : findSub w s = some i) : (s.drop (i + w.length)).length < s.length := by
  rw [List.length_drop]
  have hs : s ≠ [] := by
    intro e
    subst e
    rw [findSub_nil w hw] at h
    exact Option.noConfusion h
  have h1 : 0 < s.length := List.length_pos.mpr hs
  have h2 : 0 < w.length := List.length_pos.mpr hw
  omega

theorem splitByWordAux_succ_some (w s : List Char) (fuel i : Nat)
    (h : findSub w s = some i) :
    splitByWordAux w (fuel + 1) s =
      trim (s.take i) :: splitByWordAux w fuel (s.drop (i + w.length)) := by
  simp [splitByWordAux, h]

theorem splitByWordAux_succ_none (w s : List Char) (fuel : Nat)
    (h : findSub w s = none) :
    splitByWordAux w (fuel + 1) s = if s = [] then [] else [trim s] := by
  simp [splitByWordAux, h]

theorem splitByWordBodyAux_succ_some (w s : List Char) (fuel i : Nat)
    (h : findSub w s = some i) :
    splitByWordBodyAux w (fuel + 1) s =
      trim (s.take i) :: splitByWordBodyAux w fuel (s.drop (i + w.length)) := by
  simp [splitByWordBodyAux, h]

theorem splitByWordBodyAux_succ_none (w s : List Char) (fuel : Nat)
    (h : findSub w s = none) : splitByWordBodyAux w (fuel + 1) s = [] := by
  simp [splitByWordBodyAux, h]

theorem splitByWordTailAux_succ_some (w s : List Char) (fuel i : Nat)
    (h : findSub w s = some i) :
    splitByWordTailAux w (fuel + 1) s =
      splitByWordTailAux w fuel (s.drop (i + w.length)) := by
  simp [splitByWordTailAux, h]

theorem splitByWordTailAux_succ_none (w s : List Char) (fuel : Nat)
    (h : findSub w s = none) : splitByWordTailAux w (fuel + 1) s = s := by
  simp [splitByWordTailAux, h]

/-- With enough fuel, `splitByWord` is its occurrence tokens followed by
the trimmed trailing remainder — the latter omitted exactly when the
remainder is empty before trimming. -/
theorem splitByWord_decomp_aux :
    ∀ (fuel : Nat) (w s : List Char), w ≠ [] → s.length < fuel →
      splitByWordAux w fuel s =
        splitByWordBodyAux w fuel s ++
          (if splitByWordTailAux w fuel s = [] then []
           else [trim (splitByWordTailAux w fuel s)]) := by
  intro fuel
  induction fuel with
  | zero => intro w s _ h; omega
  | succ fuel ih =>
    intro w s hw hlen
    cases hfs : findSub w s with
    | none =>
      rw [splitByWordAux_succ_none w s fuel hfs, splitByWordBodyAux_succ_none w s fuel hfs,
          splitByWordTailAux_succ_none w s fuel hfs]
      by_cases hs : s = [] <;> simp [hs]
    | some i =>
      rw [splitByWordAux_succ_some w s fuel i hfs,
          splitByWordBodyAux_succ_some w s fuel i hfs,
          splitByWordTailAux_succ_some w s fuel i hfs]
      have hlt : (s.drop (i + w.length)).length < fuel := by
        have h1 := drop_length_lt w s i hw hfs
        omega
      rw [ih w (s.drop (i + w.length)) hw hlt, List.cons_append]

theorem splitByWord_decomp (s w : List Char) (hw : w ≠ []) :
    splitByWord s w =
      splitByWordBody s w ++
        (if splitByWordTail s w = [] then [] else [trim (splitByWordTail s w)]) := by
  unfold splitByWord splitByWordBody splitByWordTail
  exact splitByWord_decomp_aux (s.length + 1) w s hw (Nat.lt_succ_self _)

theorem dropWhile_all (p : Char → Bool) :
    ∀ l : List Char, (∀ c ∈ l, p c = true) → l.dropWhile p = [] := by
  intro l
  induction l with
  | nil => intro _; rfl
  | cons c rest ih =>
    intro h
    rw [List.dropWhile_cons, if_pos (h c (List.mem_cons_self _ _))]
    exact ih (fun x hx => h x (List.mem_cons_of_mem _ hx))

/-- A string of only whitespace trims to the empty string. -/
theorem trim_all_ws (r : List Char) (h : ∀ c ∈ r, isWS c = true) : trim r = [] := by
  unfold trim
  rw [dropWhile_all isWS r h]
  rfl

/-- Claim C10: `splitByWord` omits the trailing remainder exactly when the
remainder is empty before trimming; a remainder of only whitespace is
emitted as a final empty token. -/
theorem C10_trailing_remainder_policy (s w : List Char) (hw : w ≠ []) :
    (splitByWordTail s w = [] → splitByWord s w = splitByWordBody s w) ∧
    (splitByWordTail s w ≠ [] →
      splitByWord s w = splitByWordBody s w ++ [trim (splitByWordTail s w)]) ∧
    (splitByWordTail s w ≠ [] → (∀ c ∈ splitByWordTail s w, isWS c = true) →
      splitByWord s w = splitByWordBody s w ++ [[]]) := by
  have hd := splitByWord_decomp s w hw
  refine ⟨?_, ?_, ?_⟩
  · intro h
    rw [hd, h]
    simp
  · intro h
    rw [hd, if_neg h]
  · intro h hws
    rw [hd, if_neg h, trim_all_ws _ hws]

theorem C10_witness :
    splitByWord (str "A OR ") (str "OR") = splitByWordBody (str "A OR ") (str "OR") ++ [[]] :=
  (C10_trailing_remainder_policy (str "A OR ") (str "OR") (by decide)).2.2
    (by decide) (by decide)

theorem dedupOptions_seen_mono :
    ∀ (os seen : List (List Char)) (x : List Char),
      x ∈ seen → x ∈ (dedupOptions seen os).1 := by
  intro os
  induction os with
  | nil => intro seen x hx; exact hx
  | cons o os ih =>
    intro seen x hx
    by_cases ho : o ∈ seen
    · simp only [dedupOptions, if_pos ho]
      exact ih seen x hx
    · simp only [dedupOptions, if_neg ho]
      exact ih (o :: seen) x (List.mem_cons_of_mem _ hx)

theorem dedupOptions_kept_mem :
    ∀ (os seen : List (List Char)) (x : List Char),
      x ∈ (dedupOptions seen os).2 → x ∈ (dedupOptions seen os).1 := by
  intro os
  induction os with
  | nil => intro seen x hx; simp [dedupOptions] at hx
  | cons o os ih =>
    intro seen x hx
    by_cases ho : o ∈ seen
    · simp only [dedupOptions, if_pos ho] at hx ⊢
      exact ih seen x hx
    · simp only [dedupOptions, if_neg ho] at hx ⊢
      rcases List.mem_cons.mp hx with h1 | h1
      · subst h1
        exact dedupOptions_seen_mono os (x :: seen) x (List.mem_cons_self _ _)
      · exact ih (o :: seen) x h1

theorem dedupOptions_kept_fresh :
    ∀ (os seen : List (List Char)) (x : List Char),
      x ∈ (dedupOptions seen os).2 → x ∉ seen := by
  intro os
  induction os with
  | nil => intro seen x hx; simp [dedupOptions] at hx
  | cons o os ih =>
    intro seen x hx
    by_cases ho : o ∈ seen
    · simp only [dedupOptions, if_pos ho] at hx
      exact ih seen x hx
    · simp only [dedupOptions, if_neg ho] at hx
      rcases List.mem_cons.mp hx with h1 | h1
      · subst h1; exact ho
      · intro hs
        exact ih (o :: seen) x h1 (List.mem_cons_of_mem _ hs)

theorem dedupOptions_kept_nodup :
    ∀ (os seen : List (List Char)), (dedupOptions seen os).2.Nodup := by
  intro os
  induction os with
  | nil => intro seen; simp [dedupOptions]
  | cons o os ih =>
    intro seen
    by_cases ho : o ∈ seen
    · simp only [dedupOptions, if_pos ho]
      exact ih seen
    · simp only [dedupOptions, if_neg ho]
      refine List.Nodup.cons ?_ (ih (o :: seen))
      intro hmem
      exact dedupOptions_kept_fresh os (o :: seen) o hmem (List.mem_cons_self _ _)

/-- Invariant of the per-row group loop of `parsePrerequisites`: every key
and every alternative of the expression built so far is in the shared seen
set, the keys are pairwise distinct, and so are all alternatives across the
whole expression. -/
def ExprInv (st : List (List Char) × List (List (List Char))) : Prop :=
  (∀ k ∈ st.2.map codeKey, k ∈ st.1) ∧
  (st.2.map codeKey).Nodup ∧
  (∀ a ∈ st.2.flatten, a ∈ st.1) ∧
  st.2.flatten.Nodup

theorem addGroup_inv (st : List (List Char) × List (List (List Char))) (g : List Char)
    (h : ExprInv st) : ExprInv (addGroup st g) := by
  obtain ⟨hk1, hk2, ha1, ha2⟩ := h
  simp only [addGroup]
  split
  · exact ⟨fun k hk => dedupOptions_seen_mono _ _ _ (hk1 k hk), hk2,
      fun a ha => dedupOptions_seen_mono _ _ _ (ha1 a ha), ha2⟩
  · split
    · exact ⟨fun k hk => dedupOptions_seen_mono _ _ _ (hk1 k hk), hk2,
        fun a ha => dedupOptions_seen_mono _ _ _ (ha1 a ha), ha2⟩
    · rename_i hdd hkey
      refine ⟨?_, ?_, ?_, ?_⟩ <;> dsimp only
      · intro k hk
        rw [List.map_append, List.mem_append] at hk
        rcases hk with hk | hk
        · exact List.mem_cons_of_mem _ (dedupOptions_seen_mono _ _ _ (hk1 k hk))
        · simp only [List.map_cons, List.map_nil, List.mem_singleton] at hk
          subst hk
          exact List.mem_cons_self _ _
      · rw [List.map_append, List.nodup_append]
        refine ⟨hk2, by simp, ?_⟩
        intro k hk hk'
        simp only [List.map_cons, List.map_nil, List.mem_singleton] at hk'
        subst hk'
        exact hkey (dedupOptions_seen_mono _ _ _ (hk1 _ hk))
      · intro a ha
        rw [List.flatten_append] at ha
        simp only [List.flatten_cons, List.flatten_nil, List.append_nil,
          List.mem_append] at ha
        rcases ha with ha | ha
        · exact List.mem_cons_of_mem _ (dedupOptions_seen_mono _ _ _ (ha1 a ha))
        · exact List.mem_cons_of_mem _ (dedupOptions_kept_mem _ _ _ ha)
      · rw [List.flatten_append]
        simp only [List.flatten_cons, List.flatten_nil, List.append_nil]
        rw [List.nodup_append]
        refine ⟨ha2, dedupOptions_kept_nodup _ _, ?_⟩
        intro a ha ha'
        exact dedupOptions_kept_fresh _ _ _ ha' (ha1 a ha)

theorem foldl_addGroup_inv :
    ∀ (groups : List (List Char)) (st : List (List Char) × List (List (List Char))),
      ExprInv st → ExprInv (groups.foldl addGroup st) := by
  intro groups
  induction groups with
  | nil => intro st h; exact h
  | cons g gs ih => intro st h; exact ih (addGroup st g) (addGroup_inv st g h)

/-- The expression a single row builds (onto an empty expression) has
pairwise-distinct code keys. -/
theorem processPrereqField_keys_nodup (s : List Char) :
    ((processPrereqField [] s).map codeKey).Nodup :=
  (foldl_addGroup_inv (split s ',') ([], [])
    ⟨by simp, by simp, by simp, by simp⟩).2.1

/-- The expression a single row builds (onto an empty expression) has
pairwise-distinct alternatives overall. -/
theorem processPrereqField_flatten_nodup (s : List Char) :
    (processPrereqField [] s).flatten.Nodup :=
  (foldl_addGroup_inv (split s ',') ([], [])
    ⟨by simp, by simp, by simp, by simp⟩).2.2.2

theorem foldl_append_acc :
    ∀ (l : List (List Char)) (acc : List Char),
      l.foldl (fun a o => a ++ o ++ [' ']) acc =
        acc ++ l.foldl (fun a o => a ++ o ++ [' ']) [] := by
  intro l
  induction l with
  | nil => intro acc; simp
  | cons x t ih =>
    intro acc
    rw [List.foldl_cons, List.foldl_cons, ih (acc ++ x ++ [' ']), ih ([] ++ x ++ [' '])]
    simp [List.append_assoc]

theorem joinTrail_cons (x : List Char) (t : List (List Char)) :
    joinTrail (x :: t) = x ++ [' '] ++ joinTrail t := by
  unfold joinTrail
  rw [List.foldl_cons, foldl_append_acc t ([] ++ x ++ [' '])]
  simp

/-- The string the code joins (trailing space after every alternative) is
the spec's canonical key followed by one space, for non-empty groups. -/
theorem joinTrail_eq_canonicalKey :
    ∀ g : List (List Char), g ≠ [] → joinTrail g = canonicalKey g ++ [' '] := by
  intro g
  induction g with
  | nil => intro h; exact absurd rfl h
  | cons x t ih =>
    intro _
    cases t with
    | nil => simp [joinTrail, canonicalKey]
    | cons y ys =>
      rw [joinTrail_cons, ih (by simp), canonicalKey]
      simp [List.append_assoc]

/-- Groups with equal canonical keys get equal code keys, so the code's
key-based dedup also separates canonical keys. -/
theorem canonicalKey_eq_codeKey (g1 g2 : List (List Char))
    (h : canonicalKey g1 = canonicalKey g2) : codeKey g1 = codeKey g2 := by
  unfold codeKey
  by_cases h1 : g1 = []
  · by_cases h2 : g2 = []
    · subst h1; subst h2; rfl
    · subst h1
      rw [joinTrail_eq_canonicalKey g2 h2, ← h]
      decide
  · by_cases h2 : g2 = []
    · subst h2
      rw [joinTrail_eq_canonicalKey g1 h1, h]
      decide
    · rw [joinTrail_eq_canonicalKey g1 h1, joinTrail_eq_canonicalKey g2 h2, h]

theorem map_canonicalKey_nodup (e : List (List (List Char)))
    (h : (e.map codeKey).Nodup) : (e.map canonicalKey).Nodup := by
  have h' : e.Pairwise (fun a b => codeKey a ≠ codeKey b) := List.pairwise_map.mp h
  exact List.pairwise_map.mpr
    (h'.imp (fun hab he => hab (canonicalKey_eq_codeKey _ _ he)))

/-- A flat-Nodup expression has Nodup groups that are pairwise disjoint. -/
theorem flatten_nodup_split :
    ∀ e : List (List (List Char)), e.flatten.Nodup →
      (∀ g ∈ e, g.Nodup) ∧ e.Pairwise (fun g1 g2 => ∀ a ∈ g1, a ∉ g2) := by
  intro e
  induction e with
  | nil => intro _; simp
  | cons g gs ih =>
    intro h
    rw [List.flatten_cons] at h
    have hg : g.Nodup := h.of_append_left
    have hgs : gs.flatten.Nodup := h.of_append_right
    have hdisj : ∀ a ∈ g, a ∉ gs.flatten := by
      intro a ha hb
      exact (List.disjoint_of_nodup_append h) ha hb
    obtain ⟨ih1, ih2⟩ := ih hgs
    refine ⟨?_, ?_⟩
    · intro x hx
      rcases List.mem_cons.mp hx with h1 | h1
      · subst h1; exact hg
      · exact ih1 x h1
    · rw [List.pairwise_cons]
      refine ⟨?_, ih2⟩
      intro g2 hg2 a ha hag2
      exact hdisj a ha (List.mem_flatten_of_mem hg2 hag2)

/-- A prerequisite row only touches the entry at its own trimmed CourseId. -/
theorem processPrereqRow_other (m : CourseMap) (line id : List Char)
    (h : rowCourseId line ≠ id) : processPrereqRow m line id = m id := by
  simp only [processPrereqRow]
  cases hm : m (trim (getline3 line).1) with
  | none => rfl
  | some course =>
    simp only [mapInsert]
    rw [if_neg (fun e => h e.symm)]

theorem fold_prereq_nonmatching :
    ∀ (rows : List (List Char)) (m : CourseMap) (id : List Char),
      (∀ r ∈ rows, rowCourseId r ≠ id) →
      (rows.foldl processPrereqRow m) id = m id := by
  intro rows
  induction rows with
  | nil => intro m id _; rfl
  | cons r rest ih =>
    intro m id h
    simp only [List.foldl_cons]
    rw [ih (processPrereqRow m r) id (fun x hx => h x (List.mem_cons_of_mem _ hx)),
        processPrereqRow_other m r id (h r (List.mem_cons_self _ _))]

/-- A prerequisite row whose trimmed CourseId is found appends the
newly built groups to the course's expression. -/
theorem processPrereqRow_found (m : CourseMap) (line : List Char) (course : Course)
    (h : m (rowCourseId line) = some course) :
    processPrereqRow m line (rowCourseId line) =
      some { course with prerequisites :=
               processPrereqField course.prerequisites (trim (getline3 line).2.2) } := by
  simp only [processPrereqRow]
  rw [show m (trim (getline3 line).1) = some course from h]
  simp [mapInsert, rowCourseId]

/-- If a course starts with an empty expression and at most one
prerequisite row names it, its final expression satisfies any property
enjoyed by every single-row-built expression. -/
theorem fold_prereq_single (Good : List (List (List Char)) → Prop)
    (hGood : ∀ s, Good (processPrereqField [] s)) (hnil : Good []) :
    ∀ (rows : List (List Char)) (m : CourseMap) (id : List Char) (c : Course),
      (∀ c0, m id = some c0 → c0.prerequisites = []) →
      (rows.filter (fun r => rowCourseId r == id)).length ≤ 1 →
      (rows.foldl processPrereqRow m) id = some c →
      Good c.prerequisites := by
  intro rows
  induction rows with
  | nil =>
    intro m id c hm _ hc
    rw [hm c hc]
    exact hnil
  | cons row rest ih =>
    intro m id c hm hcount hc
    simp only [List.foldl_cons] at hc
    by_cases hb : rowCourseId row = id
    · rw [List.filter_cons_of_pos (by simp [hb])] at hcount
      simp only [List.length_cons] at hcount
      have hrestnil : rest.filter (fun r => rowCourseId r == id) = [] :=
        List.length_eq_zero.mp (by omega)
      have hnone : ∀ x ∈ rest, rowCourseId x ≠ id := by
        intro x hx heq
        have hmem : x ∈ rest.filter (fun r => rowCourseId r == id) := by
          rw [List.mem_filter]
          exact ⟨hx, by simp [heq]⟩
        rw [hrestnil] at hmem
        simp at hmem
      rw [fold_prereq_nonmatching rest (processPrereqRow m row) id hnone] at hc
      subst hb
      cases hm0 : m (rowCourseId row) with
      | none =>
        rw [processPrereqRow_absent m row hm0, hm0] at hc
        exact Option.noConfusion hc
      | some c0 =>
        have hc0 : c0.prerequisites = [] := hm c0 hm0
        rw [processPrereqRow_found m row c0 hm0, hc0] at hc
        injection hc with hc'
        rw [← hc']
        exact hGood _
    · rw [List.filter_cons_of_neg (by simp [hb])] at hcount
      refine ih (processPrereqRow m row) id c ?_ hcount hc
      intro c0 h0
      rw [processPrereqRow_other m row id hb] at h0
      exact hm c0 h0

theorem fold_catalog_prereqs_empty :
    ∀ (rows : List (List Char)) (m : CourseMap),
      (∀ id c, m id = some c → c.prerequisites = []) →
      ∀ id c, (rows.foldl processCatalogRow m) id = some c → c.prerequisites = [] := by
  intro rows
  induction rows with
  | nil => intro m hm; exact hm
  | cons r rest ih =>
    intro m hm
    refine ih (processCatalogRow m r) ?_
    intro id c h
    simp only [processCatalogRow, mapInsert] at h
    by_cases he : id = trim (getline2 r).1
    · rw [if_pos he] at h
      injection h with h'
      rw [← h']
    · rw [if_neg he] at h
      exact hm id c h

/-- Every course the catalog load produces has an empty prerequisite
expression. -/
theorem catalog_prereqs_empty (src : Option (List (List Char))) (id : List Char)
    (c : Course) (h : parseClassNames src id = some c) : c.prerequisites = [] := by
  cases src with
  | none => exact Option.noConfusion h
  | some lines =>
    exact fold_catalog_prereqs_empty (lines.drop 1) emptyMap
      (fun _ _ h0 => Option.noConfusion h0) id c h

/-- Claim C4 counterexample: the dedup set is created afresh for every
prerequisite row, so two rows naming the same course append duplicate
groups — after the full pipeline the course `A` carries the two groups
`[B, C]` and `[B, C]`, whose canonical keys coincide. -/
theorem C4_counterexample :
    parsePrerequisites (some [str "H", str "A\tN\tB OR C", str "A\tN\tB OR C"])
        (parseClassNames (some [str "H", str "A,Name"])) (str "A") =
      some ⟨str "A", str "Name", [[str "B", str "C"], [str "B", str "C"]]⟩ ∧
    ¬ (([[str "B", str "C"], [str "B", str "C"]].map canonicalKey).Nodup) :=
  ⟨by decide, by decide⟩

/-- Claim C4 (amended): after the full load-then-apply pipeline, every
course whose trimmed CourseId matches at most one non-header prerequisite
row has pairwise-distinct canonical keys among the groups of its
prerequisite expression. -/
theorem C4_dedup_invariant (catalogSrc prereqSrc : Option (List (List Char)))
    (id : List Char) (c : Course)
    (hcount : ((prereqRowsOf prereqSrc).filter (fun r => rowCourseId r == id)).length ≤ 1)
    (hc : parsePrerequisites prereqSrc (parseClassNames catalogSrc) id = some c) :
    (c.prerequisites.map canonicalKey).Nodup := by
  cases prereqSrc with
  | none =>
    rw [catalog_prereqs_empty catalogSrc id c hc]
    simp
  | some lines =>
    simp only [prereqRowsOf] at hcount
    exact fold_prereq_single (fun e => (e.map canonicalKey).Nodup)
      (fun s => map_canonicalKey_nodup _ (processPrereqField_keys_nodup s))
      (by simp)
      (lines.drop 1) (parseClassNames catalogSrc) id c
      (fun c0 h0 => catalog_prereqs_empty catalogSrc id c0 h0)
      hcount hc

theorem C4_witness :
    ((prereqRowsOf (some [str "H", str "A\tN\tB OR C"])).filter
        (fun r => rowCourseId r == str "A")).length ≤ 1 ∧
    (((⟨str "A", str "Name", [[str "B", str "C"]]⟩ : Course).prerequisites.map
        canonicalKey).Nodup) :=
  ⟨by decide,
    C4_dedup_invariant (some [str "H", str "A,Name"]) (some [str "H", str "A\tN\tB OR C"])
      (str "A") ⟨str "A", str "Name", [[str "B", str "C"]]⟩ (by decide) (by decide)⟩

/-- Claim C5 counterexample: with two identical prerequisite rows for the
course `A`, the alternative `B` ends up in two distinct groups of the
course's final expression. -/
theorem C5_counterexample :
    parsePrerequisites (some [str "H2", str "A\tN\tB OR C", str "A\tN\tB OR C"])
        (parseClassNames (some [str "H2", str "A,Name"])) (str "A") =
      some ⟨str "A", str "Name", [[str "B", str "C"], [str "B", str "C"]]⟩ ∧
    ¬ (([[str "B", str "C"], [str "B", str "C"]] : List (List (List Char))).Pairwise
        (fun g1 g2 => ∀ a ∈ g1, a ∉ g2)) := by
  refine ⟨by decide, ?_⟩
  intro h
  rw [List.pairwise_cons] at h
  exact h.1 _ (List.mem_cons_self _ _) (str "B") (List.mem_cons_self _ _)
    (List.mem_cons_self _ _)

/-- Claim C5 (amended): after the full load-then-apply pipeline, every
course whose trimmed CourseId matches at most one non-header prerequisite
row has no alternative in more than one group of its expression, and no
alternative twice within a single group. -/
theorem C5_global_alternative_invariant (catalogSrc prereqSrc : Option (List (List Char)))
    (id : List Char) (c : Course)
    (hcount : ((prereqRowsOf prereqSrc).filter (fun r => rowCourseId r == id)).length ≤ 1)
    (hc : parsePrerequisites prereqSrc (parseClassNames catalogSrc) id = some c) :
    c.prerequisites.Pairwise (fun g1 g2 => ∀ a ∈ g1, a ∉ g2) ∧
    ∀ g ∈ c.prerequisites, g.Nodup := by
  cases prereqSrc with
  | none =>
    rw [catalog_prereqs_empty catalogSrc id c hc]
    simp
  | some lines =>
    simp only [prereqRowsOf] at hcount
    exact fold_prereq_single
      (fun e => e.Pairwise (fun g1 g2 => ∀ a ∈ g1, a ∉ g2) ∧ ∀ g ∈ e, g.Nodup)
      (fun s =>
        have h := flatten_nodup_split _ (processPrereqField_flatten_nodup s)
        ⟨h.2, h.1⟩)
      (by simp)
      (lines.drop 1) (parseClassNames catalogSrc) id c
      (fun c0 h0 => catalog_prereqs_empty catalogSrc id c0 h0)
      hcount hc

theorem C5_witness :
    ((prereqRowsOf (some [str "H2", str "A\tN\tB OR C"])).filter
        (fun r => rowCourseId r == str "A")).length ≤ 1 ∧
    ((⟨str "A", str "Name", [[str "B", str "C"]]⟩ : Course).prerequisites.Pairwise
        (fun g1 g2 => ∀ a ∈ g1, a ∉ g2) ∧
      ∀ g ∈ (⟨str "A", str "Name", [[str "B", str "C"]]⟩ : Course).prerequisites,
        g.Nodup) :=
  ⟨by decide,
    C5_global_alternative_invariant (some [str "H2", str "A,Name"])
      (some [str "H2", str "A\tN\tB OR C"]) (str "A")
      ⟨str "A", str "Name", [[str "B", str "C"]]⟩ (by decide) (by decide)⟩

end CourseChart
